import Mathlib

/-!
Verification of the Chomsky-normal-form converter.

The development shallowly embeds the two Python modules of the repository:

* context_free_grammar.py : the ContextFreeGrammar data model
  (variables, terminals, rules, start variable) and its mutation
  primitives add_product, add_rule, sort_rules;
* main.py : the four pipeline stages generate_combinations /
  replace_products, change_start_variable, remove_epsilon_rules,
  remove_unit_rules, convert_to_proper_form, and the driver main.

Modelling conventions:

* Python dict (the rule map) becomes an insertion-ordered association
  list, List (String x List (List String)); a Python set becomes a
  duplicate-free List String grown by append-if-absent.
* In-place mutation becomes explicit state passing of the Grammar value.
* A raised InvalidRule exception becomes Except Grammar Grammar, the
  error payload being the grammar state at raise time.
* The two while-loops that scan a growing rule map are embedded with an
  explicit fuel parameter (Option, none = fuel exhausted); the fuel used
  for remove_epsilon_rules is proved sufficient below, and for
  convert_to_proper_form the concrete evaluations all land in some.
* CPython pops elements of the nullable set in an unspecified
  (hash-dependent) order; the embedding fixes insertion order.  Where a
  claim is refuted, the refutation does not depend on this choice.
* Tokens are ASCII strings plus the epsilon marker; Python str.isupper /
  str.islower (at least one cased character, all cased characters upper
  resp. lower, the Greek epsilon being a cased lowercase letter) are
  embedded for that character universe.
-/

/-- Characters the Python str.isupper / str.islower predicates treat as
cased, restricted to the token universe of this program (ASCII letters
plus the Greek lowercase epsilon). -/
def pyCased (c : Char) : Bool := c.isAlpha || c == 'ε'

/-- Python str.isupper: at least one cased character, and every cased
character is uppercase. -/
def pyIsUpper (s : String) : Bool :=
  s.data.any pyCased && s.data.all (fun c => !pyCased c || c.isUpper)

/-- Python str.islower: at least one cased character, and every cased
character is lowercase (the epsilon marker is a lowercase letter). -/
def pyIsLower (s : String) : Bool :=
  s.data.any pyCased && s.data.all (fun c => !pyCased c || (c.isLower || c == 'ε'))

/-- The spec's variable-naming convention, from its words: a leading
uppercase letter optionally followed by digits. -/
def upperThenDigits (cs : List Char) : Bool :=
  match cs with
  | [] => false
  | c :: rest => c.isUpper && rest.all Char.isDigit

/-- Tail acceptance of the Python regex fragment \d*$ under re.match:
digits up to the end of the string, where $ also matches just before a
single newline that ends the string. -/
def dollarTail : List Char → Bool
  | [] => true
  | c :: rest => if c == '\n' then rest.isEmpty else c.isDigit && dollarTail rest

/-- Embedding of re.match applied to the pattern [A-Z]\d*$ as in
add_rule of context_free_grammar.py: the match is anchored at the start,
consumes one ASCII uppercase letter, then digits, and $ accepts the end
of the string or the position just before a terminal newline. -/
def ruleNameMatches (lhs : String) : Bool :=
  match lhs.data with
  | [] => false
  | c :: rest => c.isUpper && dollarTail rest

/-- The grammar record of context_free_grammar.py.  The rule map keeps
Python dict insertion order; variables and terminals are Python sets,
kept as duplicate-free lists. -/
structure Grammar where
  /-- The field named variables in the source; renamed because variables
  is a reserved word in Lean. -/
  vars : List String
  terminals : List String
  rules : List (String × List (List String))
  start_variable : String
deriving Repr, DecidableEq

/-- Python set.add: append the element unless it is already present. -/
def listInsert (xs : List String) (x : String) : List String :=
  if x ∈ xs then xs else xs ++ [x]

/-- Replace the value stored under the first binding of a key in an
association list (Python dict item assignment for an existing key). -/
def setValue : List (String × List (List String)) → String → List (List String) →
    List (String × List (List String))
  | [], _, _ => []
  | (k, ps) :: rest, v, new =>
    if k = v then (k, new) :: rest else (k, ps) :: setValue rest v new

/-- add_product of context_free_grammar.py: register the variable,
then append the production to its list unless an identical production
already exists; create the entry if the variable has none. -/
def add_product (g : Grammar) (v : String) (product : List String) : Grammar :=
  let varSet := listInsert g.vars v
  match g.rules.lookup v with
  | some ps =>
    { g with vars := varSet,
             rules := setValue g.rules v (if product ∈ ps then ps else ps ++ [product]) }
  | none =>
    { g with vars := varSet, rules := g.rules ++ [(v, [product])] }

/-- The per-symbol scan inside add_rule: an undeclared uppercase token
joins the variables, a lowercase token or the epsilon marker joins the
terminals. -/
def addRuleItemScan (g : Grammar) (item : String) : Grammar :=
  let g1 :=
    if pyIsUpper item ∧ item ∉ g.vars then
      { g with vars := g.vars ++ [item] }
    else g
  if pyIsLower item ∨ item = "ε" then
    { g1 with terminals := listInsert g1.terminals item }
  else g1

/-- One right-hand-side alternative of add_rule: scan its symbols, then
add the production. -/
def addRuleOne (g : Grammar) (lhs : String) (rhs_item : List String) : Grammar :=
  add_product (rhs_item.foldl addRuleItemScan g) lhs rhs_item

/-- The mutation body of add_rule (everything after the name check). -/
def add_rule (g : Grammar) (lhs : String) (rhs : List (List String)) : Grammar :=
  rhs.foldl (fun g item => addRuleOne g lhs item) g

/-- add_rule of context_free_grammar.py including its name validation:
a left-hand side rejected by the regex raises InvalidRule before any
mutation, embedded as an error carrying the untouched grammar. -/
def add_ruleE (g : Grammar) (lhs : String) (rhs : List (List String)) :
    Except Grammar Grammar :=
  if ruleNameMatches lhs then .ok (add_rule g lhs rhs) else .error g

/-- sort_rules of context_free_grammar.py: rebuild the rule map with the
start variable's entry first.  (Python raises KeyError when the start
variable has no entry; every call site below has the entry present, and
the embedding returns the grammar unchanged in that unreachable case.) -/
def sort_rules (g : Grammar) : Grammar :=
  match g.rules.lookup g.start_variable with
  | some ps =>
    { g with rules :=
        (g.start_variable, ps) :: g.rules.filter (fun vp => vp.1 != g.start_variable) }
  | none => g

/-- The ContextFreeGrammar constructor: sets from the given lists, the
rule map as given, then sort_rules. -/
def mkGrammar (variableNames terminalNames : List String)
    (rules : List (String × List (List String))) (start : String) : Grammar :=
  sort_rules { vars := variableNames.eraseDups, terminals := terminalNames.eraseDups,
               rules := rules, start_variable := start }

/-- The tuples produced by itertools.product over two values repeated n
times, in Python's enumeration order (first coordinate slowest, the
first value first). -/
def bitLists : Nat → List (List Bool)
  | 0 => [[]]
  | n + 1 =>
    ((bitLists n).map (fun bs => false :: bs)) ++ ((bitLists n).map (fun bs => true :: bs))

/-- Apply one keep-or-drop choice of generate_combinations: each
occurrence of the designated variable consumes one bit and is kept
exactly when that bit is set; other symbols are kept. -/
def applyChoice (v : String) : List String → List Bool → List String
  | [], _ => []
  | x :: rest, bits =>
    if x = v then
      match bits with
      | b :: bs => (if b then [x] else []) ++ applyChoice v rest bs
      | [] => x :: applyChoice v rest []
    else x :: applyChoice v rest bits

/-- generate_combinations of main.py: every way to keep or drop each
occurrence of the variable, an all-dropped empty result becoming the
epsilon production, in itertools.product order. -/
def generate_combinations (item : List String) (v : String) : List (List String) :=
  (bitLists (item.count v)).map (fun bits =>
    let r := applyChoice v item bits
    if r.isEmpty then ["ε"] else r)

/-- replace_products of main.py: clear the variable's production list,
then add each new production through add_product (which deduplicates). -/
def replace_products (g : Grammar) (v : String) (products : List (List String)) : Grammar :=
  products.foldl (fun g p => add_product g v p)
    { g with rules := setValue g.rules v [] }

/-- The loop condition of change_start_variable: some production is
exactly the one-symbol sequence holding the start variable. -/
def startRHSHit (g : Grammar) : Bool :=
  g.rules.any (fun vp => vp.2.any (fun p => p == [g.start_variable]))

/-- change_start_variable of main.py: on the first production equal to
[start], add the rule S0 -> start through add_rule, reassign the start
variable to S0 and re-sort; otherwise leave the grammar untouched.  The
name S0 passes the add_rule regex, so the source's add_rule cannot raise
here and the total mutation body is used. -/
def change_start_variable (g : Grammar) : Grammar :=
  if startRHSHit g then
    let g1 := add_rule g "S0" [[g.start_variable]]
    sort_rules { g1 with start_variable := "S0" }
  else g

/-- The removal grammar.rules[variable].remove(['ε']) performed when a
nullable variable is popped from the worklist. -/
def removeEpsVar (g : Grammar) (v : String) : Grammar :=
  match g.rules.lookup v with
  | some ps => { g with rules := setValue g.rules v (ps.erase ["ε"]) }
  | none => g

/-- The inner rewriting pass of remove_epsilon_rules: traverse every
rule key, expand each production containing the popped variable through
generate_combinations, replace the variable's productions, and enqueue a
variable that now has an epsilon production and is not yet visited. -/
def rewritePass (v : String) (visited : List String) :
    List String → Grammar → List String → Grammar × List String
  | [], g, worklist => (g, worklist)
  | w :: keys, g, worklist =>
    let pros := (g.rules.lookup w).getD []
    let new_pros := pros.flatMap (fun pro =>
      if v ∈ pro then generate_combinations pro v else [pro])
    let g1 := replace_products g w new_pros
    let worklist1 :=
      if ["ε"] ∈ (g1.rules.lookup w).getD [] ∧ w ∉ visited then
        listInsert worklist w
      else worklist
    rewritePass v visited keys g1 worklist1

/-- The worklist loop of remove_epsilon_rules, with explicit fuel: pop a
nullable variable, delete its epsilon production, mark it visited, run
the rewriting pass, repeat. -/
def removeEpsAux : Nat → Grammar → List String → List String → Option Grammar
  | 0, _, _, _ => none
  | fuel + 1, g, worklist, visited =>
    match worklist with
    | [] => some g
    | v :: rest =>
      let g1 := removeEpsVar g v
      let visited1 := v :: visited
      let st := rewritePass v visited1 (g1.rules.map Prod.fst) g1 rest
      removeEpsAux fuel st.1 st.2 visited1

/-- The initial nullable set: every rule key owning a direct epsilon
production, in rule-map order. -/
def initNullable (g : Grammar) : List String :=
  (g.rules.filter (fun vp => decide (["ε"] ∈ vp.2))).map Prod.fst

/-- remove_epsilon_rules of main.py.  The fuel one-more-than the number
of rule entries is proved sufficient below (each pop visits a fresh rule
key). -/
def remove_epsilon_rules (g : Grammar) : Option Grammar :=
  removeEpsAux (g.rules.length + 1) g (initNullable g) []

/-- The snapshot of unit pairs taken at the start of remove_unit_rules:
every (variable, production) with a one-symbol production whose symbol
is a grammar variable. -/
def unitPairs (g : Grammar) : List (String × List String) :=
  g.rules.flatMap (fun vp =>
    (vp.2.filter (fun p => decide (p.length = 1 ∧ p.headD "" ∈ g.vars))).map
      (fun p => (vp.1, p)))

/-- The indexed loop of remove_unit_rules over the snapshot: skip
self-loops; otherwise delete the unit production, and unless some
earlier pair already carried one of the target's current productions
into this variable, add all of the target's current productions through
add_rule (which can raise on an ill-formed variable name). -/
def removeUnitAux (g : Grammar) : List (String × List String) →
    List (String × List String) → Except Grammar Grammar
  | _, [] => .ok g
  | processed, (v, product) :: pending =>
    if product.headD "" = v then
      removeUnitAux g (processed ++ [(v, product)]) pending
    else
      let g1 := { g with rules := setValue g.rules v (((g.rules.lookup v).getD []).erase product) }
      let bPros := (g1.rules.lookup (product.headD "")).getD []
      if bPros.any (fun item => decide ((v, item) ∈ processed)) then
        removeUnitAux g1 (processed ++ [(v, product)]) pending
      else
        match add_ruleE g1 v bPros with
        | .ok g2 => removeUnitAux g2 (processed ++ [(v, product)]) pending
        | .error ge => .error ge

/-- remove_unit_rules of main.py. -/
def remove_unit_rules (g : Grammar) : Except Grammar Grammar :=
  removeUnitAux g [] (unitPairs g)

/-- Python list index assignment rules[variable][j] = p. -/
def setIdx (l : List (List String)) (j : Nat) (p : List String) : List (List String) :=
  l.set j p

/-- Fuel for the two index-driven while-loops of convert_to_proper_form
(Python iterates a live, growing rule map; the constant is ample for
every concrete grammar evaluated in this development and exhaustion is
reported as none, never as a wrong grammar). -/
def convFuel : Nat := 400

/-- The inner for-loop of the first step of convert_to_proper_form, in
Python's live-list iteration semantics: the running index k advances by
one each iteration over the current production list of the variable, so
removing the current element skips its successor and appended elements
are iterated.  A production of length at least 3 is removed, its tail is
bound to a reused or fresh U-variable, and a two-symbol replacement is
added through add_rule. -/
def step1Inner : Nat → Grammar → Nat → String → Nat →
    Option (Except Grammar (Grammar × Nat))
  | 0, _, _, _, _ => none
  | fuel + 1, g, i, v, k =>
    let products := (g.rules.lookup v).getD []
    if h : k < products.length then
      let product := products.get ⟨k, h⟩
      if 3 ≤ product.length then
        let g1 := { g with rules := setValue g.rules v (products.erase product) }
        let new_product := [product.drop 1]
        match g1.rules.find? (fun vp => vp.2 == new_product) with
        | some vp =>
          match add_ruleE g1 v [[product.headD "", vp.1]] with
          | .ok g2 => step1Inner fuel g2 i v (k + 1)
          | .error ge => some (.error ge)
        | none =>
          match add_ruleE g1 ("U" ++ toString i) new_product with
          | .ok g2 =>
            match add_ruleE g2 v [[product.headD "", "U" ++ toString i]] with
            | .ok g3 => step1Inner fuel g3 (i + 1) v (k + 1)
            | .error ge => some (.error ge)
          | .error ge => some (.error ge)
      else step1Inner fuel g i v (k + 1)
    else some (.ok (g, i))

/-- The outer while-loop of the first step of convert_to_proper_form:
the index walks the current (growing) key list of the rule map. -/
def step1Outer : Nat → Grammar → Nat → Nat → Option (Except Grammar (Grammar × Nat))
  | 0, _, _, _ => none
  | fuel + 1, g, i, index =>
    if h : index < g.rules.length then
      let v := (g.rules.get ⟨index, h⟩).1
      match step1Inner convFuel g i v 0 with
      | some (.ok gi) => step1Outer fuel gi.1 gi.2 (index + 1)
      | some (.error ge) => some (.error ge)
      | none => none
    else some (.ok (g, i))

/-- The body handling one position (first or second) of a length-two
production in the second step of convert_to_proper_form: when the
examined symbol is a terminal, reuse a variable whose production list is
exactly that terminal alone or mint a fresh U-variable for it, and
overwrite position j of the variable's production list with the
two-symbol replacement built by mkRepl. -/
def step2Subst (g : Grammar) (i : Nat) (v : String) (j : Nat) (sym : String)
    (mkRepl : String → List String) : Except Grammar (Grammar × Nat) :=
  if sym ∈ g.terminals then
    let new_product := [[sym]]
    match g.rules.find? (fun vp => vp.2 == new_product) with
    | some vp =>
      .ok ({ g with rules := setValue g.rules v (setIdx ((g.rules.lookup v).getD []) j (mkRepl vp.1)) }, i)
    | none =>
      match add_ruleE g ("U" ++ toString i) new_product with
      | .ok g2 =>
        .ok ({ g2 with rules := setValue g2.rules v (setIdx ((g2.rules.lookup v).getD []) j (mkRepl ("U" ++ toString i))) }, i + 1)
      | .error ge => .error ge
  else .ok (g, i)

/-- The inner enumerate-loop of the second step of convert_to_proper_form,
again in live-list semantics: for a production of length at least 2,
isolate a terminal in the first position, refetch the (possibly
truncated) production at index j, then isolate a terminal in its second
position. -/
def step2Inner : Nat → Grammar → Nat → String → Nat →
    Option (Except Grammar (Grammar × Nat))
  | 0, _, _, _, _ => none
  | fuel + 1, g, i, v, j =>
    let products := (g.rules.lookup v).getD []
    if h : j < products.length then
      let product := products.get ⟨j, h⟩
      if 2 ≤ product.length then
        match step2Subst g i v j (product.headD "") (fun w => [w, product.getD 1 ""]) with
        | .error ge => some (.error ge)
        | .ok gi =>
          let ga := gi.1
          let producta := ((ga.rules.lookup v).getD []).getD j []
          match step2Subst ga gi.2 v j (producta.getD 1 "")
              (fun w => [producta.headD "", w]) with
          | .error ge => some (.error ge)
          | .ok gb => step2Inner fuel gb.1 gb.2 v (j + 1)
      else step2Inner fuel g i v (j + 1)
    else some (.ok (g, i))

/-- The outer while-loop of the second step of convert_to_proper_form. -/
def step2Outer : Nat → Grammar → Nat → Nat → Option (Except Grammar (Grammar × Nat))
  | 0, _, _, _ => none
  | fuel + 1, g, i, index =>
    if h : index < g.rules.length then
      let v := (g.rules.get ⟨index, h⟩).1
      match step2Inner convFuel g i v 0 with
      | some (.ok gi) => step2Outer fuel gi.1 gi.2 (index + 1)
      | some (.error ge) => some (.error ge)
      | none => none
    else some (.ok (g, i))

/-- convert_to_proper_form of main.py: the production-shortening step
followed by the terminal-isolation step, the fresh-variable counter i
starting at 1 and flowing from the first step into the second. -/
def convert_to_proper_form (g : Grammar) : Option (Except Grammar Grammar) :=
  match step1Outer convFuel g 1 0 with
  | some (.ok gi) =>
    match step2Outer convFuel gi.1 gi.2 0 with
    | some (.ok gj) => some (.ok gj.1)
    | some (.error ge) => some (.error ge)
    | none => none
  | some (.error ge) => some (.error ge)
  | none => none

namespace Pipeline

/-- main of main.py: the four pipeline stages in order (namespaced
because a bare main is reserved by Lean). -/
def main (g : Grammar) : Option (Except Grammar Grammar) :=
  let g1 := change_start_variable g
  match remove_epsilon_rules g1 with
  | none => none
  | some g2 =>
    match remove_unit_rules g2 with
    | .error ge => some (.error ge)
    | .ok g3 => convert_to_proper_form g3

end Pipeline

/-- Decidable form of the data-model invariant that no variable's
production list contains two identical productions. -/
def dupFreeB (g : Grammar) : Bool :=
  g.rules.all (fun vp => decide vp.2.Nodup)

/-- Grammar with rules S -> AAa | AAb and A -> a, start S: two adjacent
long productions for the same variable. -/
def gLong : Grammar :=
  mkGrammar ["S", "A"] ["a", "b"]
    [("S", [["A", "A", "a"], ["A", "A", "b"]]), ("A", [["a"]])] "S"

/-- The unit-chain grammar of the spec's Scenario 2: A -> B, B -> C,
C -> a, start A. -/
def gChain : Grammar :=
  mkGrammar ["A", "B", "C"] ["a"]
    [("A", [["B"]]), ("B", [["C"]]), ("C", [["a"]])] "A"

/-- Grammar with rules S -> AB, A -> epsilon | B, B -> epsilon | A,
start S: two mutually nullable variables. -/
def gMutual : Grammar :=
  mkGrammar ["S", "A", "B"] ["a"]
    [("S", [["A", "B"]]), ("A", [["ε"], ["B"]]), ("B", [["ε"], ["A"]])] "S"

/-- Grammar with rules S -> aS | a, start S: the start variable occurs
inside a longer right-hand side but never as a whole production. -/
def gStartInside : Grammar :=
  mkGrammar ["S"] ["a"] [("S", [["a", "S"], ["a"]])] "S"

/-- The spec's Scenario 1: S -> aSb | epsilon, start S. -/
def gAnBn : Grammar :=
  mkGrammar ["S"] ["a", "b"] [("S", [["a", "S", "b"], ["ε"]])] "S"

/-- Grammar whose variable set already contains S0 while a production
equals [S]: variables S and S0, rules S -> a and S0 -> S, start S. -/
def gS0Taken : Grammar :=
  mkGrammar ["S", "S0"] ["a"] [("S", [["a"]]), ("S0", [["S"]])] "S"

/-- Grammar with rules S -> ab | Xb and X -> a, start S: terminal
isolation rewrites both productions of S to the same pair. -/
def gDup : Grammar :=
  mkGrammar ["S", "X"] ["a", "b"]
    [("S", [["a", "b"], ["X", "b"]]), ("X", [["a"]])] "S"

/-- A one-rule grammar S -> a used to instantiate universally
quantified theorems. -/
def gTiny : Grammar := mkGrammar ["S"] ["a"] [("S", [["a"]])] "S"

/-- The grammar the full pipeline returns on gLong. -/
def gLongRes : Grammar :=
  { vars := ["S", "A", "U1"], terminals := ["a", "b"],
    rules := [("S", [["A", "A", "b"], ["A", "U1"]]), ("A", [["a"]]), ("U1", [["A", "A"]])],
    start_variable := "S" }

/-- The grammar remove_unit_rules returns on gChain. -/
def gChainRes : Grammar :=
  { vars := ["A", "B", "C"], terminals := ["a"],
    rules := [("A", [["C"]]), ("B", [["a"]]), ("C", [["a"]])],
    start_variable := "A" }

/-- The grammar remove_epsilon_rules returns on gMutual. -/
def gMutualRes : Grammar :=
  { vars := ["S", "A", "B"], terminals := ["a"],
    rules := [("S", [["B"], ["A"], ["A", "B"]]), ("A", [["ε"], ["B"]]), ("B", [["A"]])],
    start_variable := "S" }

/-- The grammar the full pipeline returns on gStartInside. -/
def gStartInsideRes : Grammar :=
  { vars := ["S", "U1"], terminals := ["a"],
    rules := [("S", [["U1", "S"], ["a"]]), ("U1", [["a"]])],
    start_variable := "S" }

/-- The grammar the full pipeline returns on gAnBn. -/
def gAnBnRes : Grammar :=
  { vars := ["S", "U1", "U2", "U3"], terminals := ["a", "b"],
    rules := [("S", [["U2", "U3"], ["U2", "U1"]]), ("U1", [["S", "U3"]]),
              ("U2", [["a"]]), ("U3", [["b"]])],
    start_variable := "S" }

/-- The grammar convert_to_proper_form returns on gDup. -/
def gDupRes : Grammar :=
  { vars := ["S", "X", "U1"], terminals := ["a", "b"],
    rules := [("S", [["X", "U1"], ["X", "U1"]]), ("X", [["a"]]), ("U1", [["b"]])],
    start_variable := "S" }

/-- Whether the start variable occurs inside any right-hand-side
production of the grammar. -/
def startOnRHS (g : Grammar) : Bool :=
  g.rules.any (fun vp => vp.2.any (fun p => decide (g.start_variable ∈ p)))

/-- Grammar with rules S to a and A to S, start S: triggers start
isolation while the name S0 is still unused. -/
def gTrig : Grammar :=
  mkGrammar ["S", "A"] ["a"] [("S", [["a"]]), ("A", [["S"]])] "S"

/-- Claim C1 (code bug): on the grammar with rules S to AAa | AAb and
A to a, the full pipeline returns a grammar whose start variable still
owns the length-3 production A A b, so not every remaining production
has length 1 (a terminal) or length 2 (two variables).  The removal of
the production A A a inside the live iteration over the production list
makes Python's iterator skip A A b, and the terminal-isolation step
never touches it because its first two symbols are variables. -/
theorem pipeline_leaves_overlong_production :
    Pipeline.main gLong = some (Except.ok gLongRes) ∧
    ["A", "A", "b"] ∈ (gLongRes.rules.lookup "S").getD [] ∧
    2 < (["A", "A", "b"] : List String).length :=
  ⟨rfl, by decide, by decide⟩

/-- Claim C2 (code bug): on the spec's Scenario 2 grammar A to B, B to
C, C to a with start A, remove_unit_rules leaves A with exactly the
unit production C (a single symbol that is a grammar variable), instead
of inlining a into A: processing the pair (A, B) copies B's production
C into A, a unit pair that is not in the initial snapshot and is never
processed. -/
theorem remove_unit_rules_keeps_unit_chain :
    remove_unit_rules gChain = Except.ok gChainRes ∧
    (gChainRes.rules.lookup "A").getD [] = [["C"]] ∧
    "C" ∈ gChainRes.vars :=
  ⟨rfl, by decide, by decide⟩

/-- Claim C3 (code bug): on the grammar S to AB, A to epsilon | B, B to
epsilon | A with start S, remove_epsilon_rules returns with the
non-start variable A still owning an epsilon production: A is rewritten
to nullable again after it was popped, and visited variables are never
re-enqueued.  (Under the opposite worklist order the same happens to
B.) -/
theorem remove_epsilon_rules_leaves_epsilon :
    remove_epsilon_rules gMutual = some gMutualRes ∧
    ["ε"] ∈ (gMutualRes.rules.lookup "A").getD [] ∧
    gMutualRes.start_variable ≠ "A" :=
  ⟨rfl, by decide, by decide⟩

/-- Claim C4 (code bug): on the grammar S to aS | a with start S, the
full pipeline returns S to U1 S | a, so the start variable occurs on a
right-hand side (and the grammar is not a single S to epsilon):
change_start_variable only fires when a production is exactly the
one-symbol sequence S, not when S occurs inside a longer production. -/
theorem pipeline_keeps_start_on_rhs :
    Pipeline.main gStartInside = some (Except.ok gStartInsideRes) ∧
    startOnRHS gStartInsideRes = true ∧
    gStartInsideRes.start_variable = "S" ∧
    ["U1", "S"] ∈ (gStartInsideRes.rules.lookup "S").getD [] :=
  ⟨rfl, by decide, by decide, by decide⟩

/-- Claim C5 (code bug): on the spec's Scenario 1 grammar S to aSb |
epsilon with start S, the pipeline never introduces S0 (no production
equals the one-symbol sequence S, so start isolation is a no-op) and
remove_epsilon_rules deletes the start's epsilon production, so the
returned grammar has no S0, retains no epsilon production anywhere, and
can no longer derive the empty string. -/
theorem scenario1_loses_empty_string :
    Pipeline.main gAnBn = some (Except.ok gAnBnRes) ∧
    "S0" ∉ gAnBnRes.vars ∧
    gAnBnRes.rules.all (fun vp => decide (["ε"] ∉ vp.2)) = true ∧
    gAnBnRes.start_variable = "S" :=
  ⟨rfl, by decide, by decide, by decide⟩

/-- Claim C6 counterexample: on the grammar with variables S and S0,
rules S to a and S0 to S and start S, a production equals the
one-symbol sequence S, yet change_start_variable reuses the existing
variable S0: the variable set does not grow and the new start variable
is not fresh. -/
theorem change_start_variable_reuses_S0 :
    startRHSHit gS0Taken = true ∧
    "S0" ∈ gS0Taken.vars ∧
    change_start_variable gS0Taken =
      { vars := ["S", "S0"], terminals := ["a"],
        rules := [("S0", [["S"]]), ("S", [["a"]])], start_variable := "S0" } ∧
    (change_start_variable gS0Taken).vars.length = gS0Taken.vars.length :=
  ⟨by decide, by decide, by decide, by decide⟩

/-- Claim C7 counterexample: the left-hand side built from an uppercase
letter followed by a newline is not a leading uppercase letter
optionally followed by digits, yet add_rule accepts it without raising:
Python's dollar anchor also matches just before a newline that ends the
string. -/
theorem add_rule_accepts_trailing_newline :
    upperThenDigits "A\n".data = false ∧
    add_ruleE gTiny "A\n" [["a"]] = Except.ok (add_rule gTiny "A\n" [["a"]]) :=
  ⟨by decide, rfl⟩

/-- Claim C8 counterexample: the grammar S to ab | Xb, X to a has
duplicate-free production lists, but convert_to_proper_form rewrites
both productions of S to X U1 through direct index assignment, so the
returned production list of S contains two identical productions. -/
theorem convert_to_proper_form_duplicates :
    dupFreeB gDup = true ∧
    convert_to_proper_form gDup = some (Except.ok gDupRes) ∧
    dupFreeB gDupRes = false :=
  ⟨by decide, rfl, by decide⟩

/-- The tail of the regex match accepts exactly the digit strings,
optionally closed by one final newline. -/
theorem dollarTail_eq (cs : List Char) :
    dollarTail cs =
      (cs.all Char.isDigit || (cs.dropLast.all Char.isDigit && cs.getLast? == some '\n')) := by
  induction cs with
  | nil => rfl
  | cons c rest ih =>
    cases rest with
    | nil =>
      by_cases hc : c = '\n' <;>
        simp [dollarTail, hc]
    | cons r rs =>
      by_cases hc : c = '\n'
      · subst hc
        simp [dollarTail]
      · rw [dollarTail, if_neg (by simp [hc]), ih]
        simp only [List.all_cons, List.dropLast_cons₂, List.getLast?_cons_cons,
          Bool.and_or_distrib_left, Bool.and_assoc]

/-- Claim C7 amended: add_rule raises InvalidRule, leaving the grammar
untouched, exactly when the left-hand side fails the regex; and the
regex accepts exactly the names made of a leading uppercase letter
optionally followed by digits, possibly closed by one trailing newline
(the one deviation from the claim, coming from Python's dollar
anchor). -/
theorem add_rule_error_characterization (g : Grammar) (lhs : String)
    (rhs : List (List String)) :
    (add_ruleE g lhs rhs = Except.error g ↔ ruleNameMatches lhs = false) ∧
    (ruleNameMatches lhs = true ↔
      (upperThenDigits lhs.data = true ∨
        (lhs.data.getLast? = some '\n' ∧ upperThenDigits lhs.data.dropLast = true))) := by
  constructor
  · unfold add_ruleE
    by_cases h : ruleNameMatches lhs = true <;> simp [h]
  · cases hd : lhs.data with
    | nil => simp [ruleNameMatches, upperThenDigits, hd]
    | cons c rest =>
      cases rest with
      | nil =>
        by_cases hu : c.isUpper <;> by_cases hn : c = '\n' <;>
          simp [ruleNameMatches, upperThenDigits, dollarTail, hd, hu, hn]
      | cons r rs =>
        simp only [ruleNameMatches, upperThenDigits, hd, dollarTail_eq,
          List.dropLast_cons₂, List.getLast?_cons_cons, Bool.and_eq_true,
          Bool.or_eq_true, List.all_cons, beq_iff_eq]
        constructor
        · rintro ⟨hu, h | ⟨h1, h2⟩⟩
          · exact Or.inl ⟨hu, h⟩
          · exact Or.inr ⟨by simpa using h2, hu, h1⟩
        · rintro (⟨hu, h⟩ | ⟨h2, hu, h1⟩)
          · exact ⟨hu, Or.inl h⟩
          · exact ⟨hu, Or.inr ⟨h1, by simpa using h2⟩⟩

theorem mem_vars_add_product (g : Grammar) (v : String) (p : List String) (x : String) :
    x ∈ (add_product g v p).vars ↔ x ∈ g.vars ∨ x = v := by
  unfold add_product listInsert
  cases g.rules.lookup v <;> by_cases hv : v ∈ g.vars <;>
    simp [hv] <;> aesop

theorem terminals_add_product (g : Grammar) (v : String) (p : List String) :
    (add_product g v p).terminals = g.terminals := by
  unfold add_product
  cases g.rules.lookup v <;> rfl

theorem mem_vars_scan (g : Grammar) (item x : String) :
    x ∈ (addRuleItemScan g item).vars ↔
      x ∈ g.vars ∨ (x = item ∧ pyIsUpper item = true) := by
  unfold addRuleItemScan
  by_cases h1 : pyIsUpper item = true ∧ item ∉ g.vars <;>
    by_cases h2 : pyIsLower item = true ∨ item = "ε" <;>
      simp [h1, h2] <;> aesop

theorem mem_terminals_scan (g : Grammar) (item x : String) :
    x ∈ (addRuleItemScan g item).terminals ↔
      x ∈ g.terminals ∨ (x = item ∧ (pyIsLower item = true ∨ item = "ε")) := by
  unfold addRuleItemScan listInsert
  by_cases h1 : pyIsUpper item = true ∧ item ∉ g.vars <;>
    by_cases h2 : pyIsLower item = true ∨ item = "ε" <;>
      by_cases h3 : item ∈ g.terminals <;>
        simp [h1, h2, h3] <;> aesop

theorem rules_scan (g : Grammar) (item : String) :
    (addRuleItemScan g item).rules = g.rules := by
  unfold addRuleItemScan
  by_cases h1 : pyIsUpper item = true ∧ item ∉ g.vars <;>
    by_cases h2 : pyIsLower item = true ∨ item = "ε" <;> simp [h1, h2]

theorem start_scan (g : Grammar) (item : String) :
    (addRuleItemScan g item).start_variable = g.start_variable := by
  unfold addRuleItemScan
  by_cases h1 : pyIsUpper item = true ∧ item ∉ g.vars <;>
    by_cases h2 : pyIsLower item = true ∨ item = "ε" <;> simp [h1, h2]

theorem mem_vars_foldScan (items : List String) (g : Grammar) (x : String)
    (hx : pyIsUpper x = false) :
    x ∈ (items.foldl addRuleItemScan g).vars ↔ x ∈ g.vars := by
  induction items generalizing g with
  | nil => simp
  | cons item rest ih =>
    rw [List.foldl_cons, ih, mem_vars_scan]
    constructor
    · rintro (h | ⟨rfl, h⟩)
      · exact h
      · rw [hx] at h
        cases h
    · exact Or.inl

theorem mem_terminals_foldScan (items : List String) (g : Grammar) (x : String)
    (hx : pyIsLower x = false) (he : x ≠ "ε") :
    x ∈ (items.foldl addRuleItemScan g).terminals ↔ x ∈ g.terminals := by
  induction items generalizing g with
  | nil => simp
  | cons item rest ih =>
    rw [List.foldl_cons, ih, mem_terminals_scan]
    constructor
    · rintro (h | ⟨rfl, h | h⟩)
      · exact h
      · rw [hx] at h
        cases h
      · exact absurd h he
    · exact Or.inl

theorem mem_keys_of_lookup (r : List (String × List (List String))) (v : String)
    (l : List (List String)) (h : r.lookup v = some l) : (v, l) ∈ r := by
  induction r with
  | nil => cases h
  | cons kp rest ih =>
    obtain ⟨k, ps⟩ := kp
    by_cases hk : k = v
    · subst hk
      simp [List.lookup] at h
      simp [h]
    · have hvk : (v == k) = false := beq_eq_false_iff_ne.mpr (Ne.symm hk)
      rw [List.lookup_cons, hvk] at h
      exact List.mem_cons_of_mem _ (ih h)

theorem lookup_setValue_self (r : List (String × List (List String))) (v : String)
    (l newl : List (List String)) (h : r.lookup v = some l) :
    (setValue r v newl).lookup v = some newl := by
  induction r with
  | nil => cases h
  | cons kp rest ih =>
    obtain ⟨k, ps⟩ := kp
    by_cases hk : k = v
    · subst hk
      simp [setValue, List.lookup]
    · have hvk : (v == k) = false := beq_eq_false_iff_ne.mpr (Ne.symm hk)
      simp [List.lookup, hvk] at h
      simp [setValue, hk, List.lookup, hvk, ih h]

theorem lookup_append_right (r s : List (String × List (List String))) (v : String)
    (h : r.lookup v = none) : (r ++ s).lookup v = s.lookup v := by
  induction r with
  | nil => simp
  | cons kp rest ih =>
    obtain ⟨k, ps⟩ := kp
    by_cases hk : k = v
    · subst hk
      simp [List.lookup] at h
    · have hvk : (v == k) = false := beq_eq_false_iff_ne.mpr (Ne.symm hk)
      rw [List.lookup_cons, hvk] at h
      rw [List.cons_append, List.lookup_cons, hvk]
      exact ih h

theorem lookup_add_product_self (g : Grammar) (v : String) (p : List String) :
    ∃ l, (add_product g v p).rules.lookup v = some l ∧ p ∈ l := by
  unfold add_product
  cases hl : g.rules.lookup v with
  | some ps =>
    refine ⟨if p ∈ ps then ps else ps ++ [p], ?_, ?_⟩
    · exact lookup_setValue_self _ _ _ _ hl
    · by_cases hp : p ∈ ps <;> simp [hp]
  | none =>
    refine ⟨[p], ?_, by simp⟩
    simp [lookup_append_right _ _ _ hl, List.lookup]

theorem lookup_add_product_mono (g : Grammar) (v : String) (q p : List String)
    (h : p ∈ (g.rules.lookup v).getD []) :
    p ∈ ((add_product g v q).rules.lookup v).getD [] := by
  unfold add_product
  cases hl : g.rules.lookup v with
  | some ps =>
    rw [hl] at h
    simp only [Option.getD_some] at h
    rw [lookup_setValue_self _ _ _ _ hl]
    by_cases hq : q ∈ ps <;> simp [hq, h]
  | none =>
    rw [hl] at h
    simp at h

theorem rules_foldScan (items : List String) (g : Grammar) :
    (items.foldl addRuleItemScan g).rules = g.rules := by
  induction items generalizing g with
  | nil => rfl
  | cons item rest ih => rw [List.foldl_cons, ih, rules_scan]

theorem isDigit_not_cased (c : Char) (h : c.isDigit = true) : pyCased c = false := by
  simp only [Char.isDigit, Bool.and_eq_true, decide_eq_true_eq, ge_iff_le] at h
  obtain ⟨h1, h2⟩ := h
  rw [UInt32.le_def, BitVec.le_def] at h1 h2
  have e1 : (48 : Nat) ≤ c.val.toNat := h1
  have e2 : c.val.toNat ≤ (57 : Nat) := h2
  have hne : c ≠ 'ε' := by
    rintro rfl
    exact absurd h2 (by decide)
  simp only [pyCased, Char.isAlpha, Char.isUpper, Char.isLower, Bool.or_eq_false_iff,
    Bool.and_eq_false_iff, decide_eq_false_iff_not, ge_iff_le, beq_eq_false_iff_ne, ne_eq]
  refine ⟨⟨Or.inl fun hx => ?_, Or.inl fun hx => ?_⟩, hne⟩ <;>
    rw [UInt32.le_def, BitVec.le_def] at hx
  · exact absurd e2 (by have e3 : (65 : Nat) ≤ c.val.toNat := hx; omega)
  · exact absurd e2 (by have e3 : (97 : Nat) ≤ c.val.toNat := hx; omega)

theorem dollarTail_chars (cs : List Char) (h : dollarTail cs = true) :
    ∀ ch ∈ cs, pyCased ch = false := by
  induction cs with
  | nil => simp
  | cons c rest ih =>
    intro ch hch
    by_cases hc : c = '\n'
    · subst hc
      rw [dollarTail, if_pos (by decide)] at h
      rcases List.mem_cons.mp hch with rfl | hr
      · decide
      · rw [List.isEmpty_iff] at h
        subst h
        cases hr
    · rw [dollarTail, if_neg (by simp [hc])] at h
      rw [Bool.and_eq_true] at h
      obtain ⟨hd, ht⟩ := h
      rcases List.mem_cons.mp hch with rfl | hr
      · exact isDigit_not_cased _ hd
      · exact ih ht ch hr

theorem ruleName_pyIsUpper (lhs : String) (h : ruleNameMatches lhs = true) :
    pyIsUpper lhs = true := by
  unfold ruleNameMatches at h
  unfold pyIsUpper
  cases hd : lhs.data with
  | nil =>
    rw [hd] at h
    exact Bool.noConfusion h
  | cons c rest =>
    rw [hd] at h
    replace h : (c.isUpper && dollarTail rest) = true := h
    rw [Bool.and_eq_true] at h
    obtain ⟨hc, ht⟩ := h
    have hcc : pyCased c = true := by
      simp [pyCased, Char.isAlpha, hc]
    simp only [List.any_cons, List.all_cons, hcc, Bool.true_or, Bool.true_and, hc,
      Bool.or_true]
    rw [List.all_eq_true]
    intro ch hch
    rw [dollarTail_chars rest ht ch hch]
    simp

theorem mem_lookup_addRuleOne_self (g : Grammar) (lhs : String) (q : List String) :
    q ∈ (((addRuleOne g lhs q).rules.lookup lhs).getD []) := by
  unfold addRuleOne
  obtain ⟨l, hl, hq⟩ := lookup_add_product_self (q.foldl addRuleItemScan g) lhs q
  rw [hl]
  exact hq

theorem mem_lookup_addRuleOne_mono (g : Grammar) (lhs : String) (q p : List String)
    (h : p ∈ ((g.rules.lookup lhs).getD [])) :
    p ∈ (((addRuleOne g lhs q).rules.lookup lhs).getD []) := by
  unfold addRuleOne
  apply lookup_add_product_mono
  rw [rules_foldScan]
  exact h

theorem mem_lookup_add_rule_fold_mono (rest : List (List String)) (g : Grammar)
    (lhs : String) (p : List String) (h : p ∈ ((g.rules.lookup lhs).getD [])) :
    p ∈ (((rest.foldl (fun g item => addRuleOne g lhs item) g).rules.lookup lhs).getD []) := by
  induction rest generalizing g with
  | nil => exact h
  | cons q qs ih =>
    rw [List.foldl_cons]
    exact ih _ (mem_lookup_addRuleOne_mono g lhs q p h)

theorem mem_lookup_add_rule (rhs : List (List String)) (g : Grammar) (lhs : String)
    (p : List String) (hp : p ∈ rhs) :
    p ∈ (((add_rule g lhs rhs).rules.lookup lhs).getD []) := by
  unfold add_rule
  induction rhs generalizing g with
  | nil => cases hp
  | cons q qs ih =>
    rw [List.foldl_cons]
    rcases List.mem_cons.mp hp with rfl | hr
    · exact mem_lookup_add_rule_fold_mono qs _ lhs p (mem_lookup_addRuleOne_self g lhs p)
    · exact ih _ hr

theorem mem_vars_addRuleOne (g : Grammar) (lhs : String) (q : List String) (x : String)
    (hu : pyIsUpper x = false) (hx : x ≠ lhs) :
    x ∈ (addRuleOne g lhs q).vars ↔ x ∈ g.vars := by
  unfold addRuleOne
  rw [mem_vars_add_product, mem_vars_foldScan _ _ _ hu]
  simp [hx]

theorem mem_terminals_addRuleOne (g : Grammar) (lhs : String) (q : List String) (x : String)
    (hl : pyIsLower x = false) (he : x ≠ "ε") :
    x ∈ (addRuleOne g lhs q).terminals ↔ x ∈ g.terminals := by
  unfold addRuleOne
  rw [terminals_add_product, mem_terminals_foldScan _ _ _ hl he]

theorem mem_vars_add_rule (rhs : List (List String)) (g : Grammar) (lhs : String)
    (x : String) (hu : pyIsUpper x = false) (hx : x ≠ lhs) :
    x ∈ (add_rule g lhs rhs).vars ↔ x ∈ g.vars := by
  unfold add_rule
  induction rhs generalizing g with
  | nil => simp
  | cons q qs ih =>
    rw [List.foldl_cons, ih, mem_vars_addRuleOne _ _ _ _ hu hx]

theorem mem_terminals_add_rule (rhs : List (List String)) (g : Grammar) (lhs : String)
    (x : String) (hl : pyIsLower x = false) (he : x ≠ "ε") :
    x ∈ (add_rule g lhs rhs).terminals ↔ x ∈ g.terminals := by
  unfold add_rule
  induction rhs generalizing g with
  | nil => simp
  | cons q qs ih =>
    rw [List.foldl_cons, ih, mem_terminals_addRuleOne _ _ _ _ hl he]

/-- Claim C10: a symbol of a production passed to add_rule with a valid
left-hand side that is neither uppercase, nor lowercase, nor the epsilon
marker is stored inside the added production but joins neither the
variable set nor the terminal set. -/
theorem add_rule_ignores_unclassified_symbols (g : Grammar) (lhs : String) (rhs : List (List String))
    (p : List String) (sym : String)
    (hname : ruleNameMatches lhs = true)
    (hp : p ∈ rhs) (hsym : sym ∈ p)
    (hu : pyIsUpper sym = false) (hl : pyIsLower sym = false) (he : sym ≠ "ε") :
    add_ruleE g lhs rhs = Except.ok (add_rule g lhs rhs) ∧
    p ∈ (((add_rule g lhs rhs).rules.lookup lhs).getD []) ∧
    (sym ∈ (add_rule g lhs rhs).vars ↔ sym ∈ g.vars) ∧
    (sym ∈ (add_rule g lhs rhs).terminals ↔ sym ∈ g.terminals) := by
  have hx : sym ≠ lhs := by
    intro e
    rw [e, ruleName_pyIsUpper lhs hname] at hu
    cases hu
  exact ⟨by simp [add_ruleE, hname],
    mem_lookup_add_rule rhs g lhs p hp,
    mem_vars_add_rule rhs g lhs sym hu hx,
    mem_terminals_add_rule rhs g lhs sym hl he⟩

/-- Witness for claim C10 at the grammar gTiny, the rule B to 1 a and
the digit symbol 1. -/
theorem add_rule_ignores_unclassified_symbols_witness :
    add_ruleE gTiny "B" [["1", "a"]] = Except.ok (add_rule gTiny "B" [["1", "a"]]) ∧
    ["1", "a"] ∈ (((add_rule gTiny "B" [["1", "a"]]).rules.lookup "B").getD []) ∧
    ("1" ∈ (add_rule gTiny "B" [["1", "a"]]).vars ↔ "1" ∈ gTiny.vars) ∧
    ("1" ∈ (add_rule gTiny "B" [["1", "a"]]).terminals ↔ "1" ∈ gTiny.terminals) :=
  add_rule_ignores_unclassified_symbols gTiny "B" [["1", "a"]] ["1", "a"] "1"
    (by decide) (by decide) (by decide) (by decide) (by decide) (by decide)

theorem vars_sort_rules (g : Grammar) : (sort_rules g).vars = g.vars := by
  unfold sort_rules
  cases g.rules.lookup g.start_variable <;> rfl

theorem start_sort_rules (g : Grammar) :
    (sort_rules g).start_variable = g.start_variable := by
  unfold sort_rules
  cases g.rules.lookup g.start_variable <;> rfl

theorem lookup_sort_rules_start (g : Grammar) (l : List (List String))
    (h : g.rules.lookup g.start_variable = some l) :
    (sort_rules g).rules.lookup g.start_variable = some l := by
  unfold sort_rules
  rw [h]
  simp [List.lookup]

theorem vars_scan_of_mem (g : Grammar) (s : String) (h : s ∈ g.vars) :
    (addRuleItemScan g s).vars = g.vars := by
  unfold addRuleItemScan
  by_cases h2 : pyIsLower s = true ∨ s = "ε" <;>
    simp [h, h2]

theorem vars_add_product (g : Grammar) (v : String) (p : List String) :
    (add_product g v p).vars = listInsert g.vars v := by
  unfold add_product
  cases g.rules.lookup v <;> rfl

/-- Claim C6 amended: when some production equals the one-symbol
sequence holding the start variable, change_start_variable adds the rule
S0 to start and reassigns the start variable to the fixed name S0; the
variable set grows by exactly one provided S0 was not already a grammar
variable (the counterexample shows the name is reused, not guaranteed
fresh) and the old start was registered; with no such production the
grammar is left entirely unchanged. -/
theorem change_start_variable_behavior (g : Grammar) :
    (startRHSHit g = false → change_start_variable g = g) ∧
    (startRHSHit g = true → "S0" ∉ g.vars → g.start_variable ∈ g.vars →
      (change_start_variable g).start_variable = "S0" ∧
      [g.start_variable] ∈ (((change_start_variable g).rules.lookup "S0").getD []) ∧
      (change_start_variable g).vars.length = g.vars.length + 1) := by
  constructor
  · intro h
    simp [change_start_variable, h]
  · intro h h2 h3
    have hcs : change_start_variable g =
        sort_rules { add_rule g "S0" [[g.start_variable]] with start_variable := "S0" } := by
      simp [change_start_variable, h]
    have hg1 : add_rule g "S0" [[g.start_variable]] =
        add_product (addRuleItemScan g g.start_variable) "S0" [g.start_variable] := by
      simp [add_rule, addRuleOne]
    obtain ⟨l, hl, hmem⟩ :=
      lookup_add_product_self (addRuleItemScan g g.start_variable) "S0" [g.start_variable]
    have hvars : (add_product (addRuleItemScan g g.start_variable) "S0"
        [g.start_variable]).vars = g.vars ++ ["S0"] := by
      rw [vars_add_product, vars_scan_of_mem _ _ h3]
      unfold listInsert
      simp [h2]
    set gm : Grammar :=
      { add_rule g "S0" [[g.start_variable]] with start_variable := "S0" } with hgm
    have hstart : gm.start_variable = "S0" := rfl
    have hrules : gm.rules.lookup "S0" = some l := by
      rw [hgm]
      show (add_rule g "S0" [[g.start_variable]]).rules.lookup "S0" = some l
      rw [hg1]
      exact hl
    refine ⟨?_, ?_, ?_⟩
    · rw [hcs, start_sort_rules]
    · rw [hcs]
      have := lookup_sort_rules_start gm l (by rw [hstart]; exact hrules)
      rw [hstart] at this
      rw [this]
      simpa using hmem
    · rw [hcs, vars_sort_rules]
      show (add_rule g "S0" [[g.start_variable]]).vars.length = g.vars.length + 1
      rw [hg1, hvars]
      simp

/-- Witness for claim C6 at the grammar gTrig, whose rule A to S
triggers the start isolation. -/
theorem change_start_variable_behavior_witness :
    (change_start_variable gTrig).start_variable = "S0" ∧
    [gTrig.start_variable] ∈ (((change_start_variable gTrig).rules.lookup "S0").getD []) ∧
    (change_start_variable gTrig).vars.length = gTrig.vars.length + 1 :=
  (change_start_variable_behavior gTrig).2 (by decide) (by decide) (by decide)

theorem keys_setValue (r : List (String × List (List String))) (v : String)
    (l : List (List String)) : (setValue r v l).map Prod.fst = r.map Prod.fst := by
  induction r with
  | nil => rfl
  | cons kp rest ih =>
    obtain ⟨k, ps⟩ := kp
    by_cases hk : k = v <;> simp [setValue, hk, ih]

theorem lookup_isSome_of_mem_keys (r : List (String × List (List String))) (v : String)
    (h : v ∈ r.map Prod.fst) : ∃ ps, r.lookup v = some ps := by
  induction r with
  | nil => cases h
  | cons kp rest ih =>
    obtain ⟨k, ps⟩ := kp
    by_cases hk : k = v
    · subst hk
      exact ⟨ps, by simp [List.lookup]⟩
    · have hvk : (v == k) = false := beq_eq_false_iff_ne.mpr (Ne.symm hk)
      rw [List.map_cons, List.mem_cons] at h
      rcases h with h | h
      · exact absurd h.symm hk
      · obtain ⟨qs, hq⟩ := ih h
        exact ⟨qs, by rw [List.lookup_cons, hvk]; exact hq⟩

theorem keys_add_product_of_mem (g : Grammar) (v : String) (p : List String)
    (h : v ∈ g.rules.map Prod.fst) :
    (add_product g v p).rules.map Prod.fst = g.rules.map Prod.fst := by
  obtain ⟨ps, hps⟩ := lookup_isSome_of_mem_keys g.rules v h
  unfold add_product
  rw [hps]
  exact keys_setValue _ _ _

theorem keys_replace_products_of_mem (g : Grammar) (v : String)
    (products : List (List String)) (h : v ∈ g.rules.map Prod.fst) :
    (replace_products g v products).rules.map Prod.fst = g.rules.map Prod.fst := by
  unfold replace_products
  have base : ({ g with rules := setValue g.rules v [] } : Grammar).rules.map Prod.fst =
      g.rules.map Prod.fst := keys_setValue _ _ _
  generalize hG : ({ g with rules := setValue g.rules v [] } : Grammar) = G at base
  clear hG
  induction products generalizing G with
  | nil => exact base
  | cons q qs ih =>
    rw [List.foldl_cons]
    exact ih _ (by rw [keys_add_product_of_mem _ _ _ (by rw [base]; exact h), base])

theorem keys_removeEpsVar (g : Grammar) (v : String) :
    (removeEpsVar g v).rules.map Prod.fst = g.rules.map Prod.fst := by
  unfold removeEpsVar
  cases g.rules.lookup v with
  | some ps => exact keys_setValue _ _ _
  | none => rfl

theorem nodup_listInsert (xs : List String) (x : String) (h : xs.Nodup) :
    (listInsert xs x).Nodup := by
  unfold listInsert
  by_cases hx : x ∈ xs
  · simpa [hx]
  · simp [hx, List.nodup_append, h]

theorem mem_listInsert (xs : List String) (x y : String) (h : y ∈ listInsert xs x) :
    y ∈ xs ∨ y = x := by
  unfold listInsert at h
  by_cases hx : x ∈ xs
  · rw [if_pos hx] at h
    exact Or.inl h
  · rw [if_neg hx] at h
    simpa using h

theorem rewritePass_spec (v : String) (visited : List String) :
    ∀ (ks : List String) (g : Grammar) (wl : List String),
    (∀ x ∈ ks, x ∈ g.rules.map Prod.fst) →
    ((rewritePass v visited ks g wl).1.rules.map Prod.fst = g.rules.map Prod.fst ∧
     (wl.Nodup → (rewritePass v visited ks g wl).2.Nodup) ∧
     (∀ x ∈ (rewritePass v visited ks g wl).2, x ∈ wl ∨ (x ∈ ks ∧ x ∉ visited))) := by
  intro ks
  induction ks with
  | nil =>
    intro g wl _
    exact ⟨rfl, fun h => h, fun x hx => Or.inl hx⟩
  | cons w rest ih =>
    intro g wl hks
    have hw : w ∈ g.rules.map Prod.fst := hks w (List.mem_cons_self _ _)
    rw [rewritePass]
    set g1 := replace_products g w
      (((g.rules.lookup w).getD []).flatMap fun pro =>
        if v ∈ pro then generate_combinations pro v else [pro]) with hg1
    have hkeys1 : g1.rules.map Prod.fst = g.rules.map Prod.fst :=
      keys_replace_products_of_mem g w _ hw
    by_cases hcond : ["ε"] ∈ (g1.rules.lookup w).getD [] ∧ w ∉ visited
    · rw [if_pos hcond]
      obtain ⟨k1, k2, k3⟩ := ih g1 (listInsert wl w)
        (fun x hx => by rw [hkeys1]; exact hks x (List.mem_cons_of_mem _ hx))
      refine ⟨by rw [k1, hkeys1], fun hnd => k2 (nodup_listInsert _ _ hnd), ?_⟩
      intro x hx
      rcases k3 x hx with hx1 | ⟨hx1, hx2⟩
      · rcases mem_listInsert _ _ _ hx1 with hx3 | rfl
        · exact Or.inl hx3
        · exact Or.inr ⟨List.mem_cons_self _ _, hcond.2⟩
      · exact Or.inr ⟨List.mem_cons_of_mem _ hx1, hx2⟩
    · rw [if_neg hcond]
      obtain ⟨k1, k2, k3⟩ := ih g1 wl
        (fun x hx => by rw [hkeys1]; exact hks x (List.mem_cons_of_mem _ hx))
      refine ⟨by rw [k1, hkeys1], k2, ?_⟩
      intro x hx
      rcases k3 x hx with hx1 | ⟨hx1, hx2⟩
      · exact Or.inl hx1
      · exact Or.inr ⟨List.mem_cons_of_mem _ hx1, hx2⟩

theorem removeEpsAux_isSome :
    ∀ (fuel : Nat) (g : Grammar) (wl visited : List String),
    wl.Nodup → visited.Nodup →
    (∀ x ∈ wl, x ∈ g.rules.map Prod.fst ∧ x ∉ visited) →
    (∀ x ∈ visited, x ∈ g.rules.map Prod.fst) →
    ((g.rules.map Prod.fst).length < fuel + visited.length) →
    (removeEpsAux fuel g wl visited).isSome = true := by
  intro fuel
  induction fuel with
  | zero =>
    intro g wl visited _ hvn _ hvk hlen
    exfalso
    have h1 : visited.length ≤ (g.rules.map Prod.fst).length := by
      rw [← List.toFinset_card_of_nodup hvn]
      have hsub : visited.toFinset ⊆ (g.rules.map Prod.fst).toFinset :=
        fun x hx => List.mem_toFinset.mpr (hvk x (List.mem_toFinset.mp hx))
      exact le_trans (Finset.card_le_card hsub) (List.toFinset_card_le _)
    omega
  | succ fuel ih =>
    intro g wl visited hwn hvn hwk hvk hlen
    cases wl with
    | nil => rfl
    | cons v rest =>
      rw [removeEpsAux]
      have hvmem : v ∈ g.rules.map Prod.fst := (hwk v (List.mem_cons_self _ _)).1
      have hvnv : v ∉ visited := (hwk v (List.mem_cons_self _ _)).2
      set g1 := removeEpsVar g v with hg1
      have hkeys1 : g1.rules.map Prod.fst = g.rules.map Prod.fst := keys_removeEpsVar g v
      obtain ⟨k1, k2, k3⟩ := rewritePass_spec v (v :: visited)
        (g1.rules.map Prod.fst) g1 rest (fun x hx => hx)
      apply ih
      · exact k2 (List.Nodup.of_cons hwn)
      · exact List.Nodup.cons hvnv hvn
      · intro x hx
        rcases k3 x hx with hx1 | ⟨hx1, hx2⟩
        · constructor
          · rw [k1, hkeys1]
            exact (hwk x (List.mem_cons_of_mem _ hx1)).1
          · intro hmem
            rcases List.mem_cons.mp hmem with rfl | hmem2
            · exact (List.nodup_cons.mp hwn).1 hx1
            · exact (hwk x (List.mem_cons_of_mem _ hx1)).2 hmem2
        · refine ⟨?_, hx2⟩
          rw [k1]
          exact hx1
      · intro x hx
        rw [k1, hkeys1]
        rcases List.mem_cons.mp hx with rfl | hx2
        · exact hvmem
        · exact hvk x hx2
      · rw [k1, hkeys1]
        simp only [List.length_cons]
        omega

/-- Claim C9: remove_epsilon_rules terminates.  With duplicate-free
rule keys (what a Python dict guarantees), every popped variable is a
rule key not yet visited, the key set never changes during the loop and
visited variables are never re-enqueued, so the loop pops each rule key
at most once and the fuel one-more-than the number of rule entries is
never exhausted. -/
theorem remove_epsilon_rules_terminates (g : Grammar)
    (h : (g.rules.map Prod.fst).Nodup) :
    (remove_epsilon_rules g).isSome = true := by
  have hsub : List.Sublist (initNullable g) (g.rules.map Prod.fst) := by
    unfold initNullable
    exact (List.filter_sublist g.rules).map Prod.fst
  unfold remove_epsilon_rules
  apply removeEpsAux_isSome
  · exact h.sublist hsub
  · exact List.nodup_nil
  · intro x hx
    exact ⟨hsub.mem hx, by simp⟩
  · intro x hx
    cases hx
  · simp

/-- Witness for claim C9 at the grammar gMutual, whose worklist loop
runs three iterations. -/
theorem remove_epsilon_rules_terminates_witness :
    (remove_epsilon_rules gMutual).isSome = true :=
  remove_epsilon_rules_terminates gMutual (by decide)

theorem mem_setValue_cases (r : List (String × List (List String))) (v : String)
    (l : List (List String)) (vp : String × List (List String))
    (h : vp ∈ setValue r v l) : vp ∈ r ∨ vp.2 = l := by
  induction r with
  | nil => cases h
  | cons kp rest ih =>
    obtain ⟨k, ps⟩ := kp
    by_cases hk : k = v
    · rw [setValue, if_pos hk] at h
      rcases List.mem_cons.mp h with rfl | hr
      · exact Or.inr rfl
      · exact Or.inl (List.mem_cons_of_mem _ hr)
    · rw [setValue, if_neg hk] at h
      rcases List.mem_cons.mp h with rfl | hr
      · exact Or.inl (List.mem_cons_self _ _)
      · rcases ih hr with h1 | h1
        · exact Or.inl (List.mem_cons_of_mem _ h1)
        · exact Or.inr h1

theorem nodupRules_setValue (r : List (String × List (List String))) (v : String)
    (l : List (List String)) (hr : ∀ vp ∈ r, vp.2.Nodup) (hl : l.Nodup) :
    ∀ vp ∈ setValue r v l, vp.2.Nodup := by
  intro vp hvp
  rcases mem_setValue_cases r v l vp hvp with h | h
  · exact hr vp h
  · rw [h]
    exact hl

theorem nodup_append_single (ps : List (List String)) (p : List String)
    (h : ps.Nodup) (hp : p ∉ ps) : (ps ++ [p]).Nodup := by
  rw [List.nodup_append]
  exact ⟨h, List.nodup_singleton p, fun a ha hb => hp (by
    rw [List.mem_singleton] at hb
    rwa [hb] at ha)⟩

theorem dupFree_add_product (g : Grammar) (v : String) (p : List String)
    (h : ∀ vp ∈ g.rules, vp.2.Nodup) : ∀ vp ∈ (add_product g v p).rules, vp.2.Nodup := by
  unfold add_product
  cases hl : g.rules.lookup v with
  | some ps =>
    intro vp hvp
    refine nodupRules_setValue g.rules v _ h ?_ vp hvp
    have hps : ps.Nodup := h (v, ps) (mem_keys_of_lookup g.rules v ps hl)
    by_cases hp : p ∈ ps
    · rwa [if_pos hp]
    · rw [if_neg hp]
      exact nodup_append_single ps p hps hp
  | none =>
    intro vp hvp
    rcases List.mem_append.mp hvp with h1 | h1
    · exact h vp h1
    · rw [List.mem_singleton] at h1
      rw [h1]
      exact List.nodup_singleton p

theorem dupFree_addRuleOne (g : Grammar) (lhs : String) (q : List String)
    (h : ∀ vp ∈ g.rules, vp.2.Nodup) : ∀ vp ∈ (addRuleOne g lhs q).rules, vp.2.Nodup := by
  unfold addRuleOne
  apply dupFree_add_product
  rw [rules_foldScan]
  exact h

theorem dupFree_add_rule (rhs : List (List String)) (g : Grammar) (lhs : String)
    (h : ∀ vp ∈ g.rules, vp.2.Nodup) : ∀ vp ∈ (add_rule g lhs rhs).rules, vp.2.Nodup := by
  unfold add_rule
  induction rhs generalizing g with
  | nil => exact h
  | cons q qs ih =>
    rw [List.foldl_cons]
    exact ih _ (dupFree_addRuleOne g lhs q h)

theorem dupFree_sort_rules (g : Grammar)
    (h : ∀ vp ∈ g.rules, vp.2.Nodup) : ∀ vp ∈ (sort_rules g).rules, vp.2.Nodup := by
  unfold sort_rules
  cases hl : g.rules.lookup g.start_variable with
  | some ps =>
    intro vp hvp
    rcases List.mem_cons.mp hvp with rfl | hr
    · exact h _ (mem_keys_of_lookup g.rules _ ps hl)
    · exact h vp (List.mem_of_mem_filter hr)
  | none => exact h

theorem dupFree_change_start (g : Grammar)
    (h : ∀ vp ∈ g.rules, vp.2.Nodup) :
    ∀ vp ∈ (change_start_variable g).rules, vp.2.Nodup := by
  unfold change_start_variable
  by_cases hc : startRHSHit g = true
  · rw [if_pos hc]
    exact dupFree_sort_rules _ (dupFree_add_rule _ _ _ h)
  · rw [if_neg hc]
    exact h

theorem dupFree_replace_products (g : Grammar) (v : String)
    (products : List (List String)) (h : ∀ vp ∈ g.rules, vp.2.Nodup) :
    ∀ vp ∈ (replace_products g v products).rules, vp.2.Nodup := by
  unfold replace_products
  have base : ∀ vp ∈ ({ g with rules := setValue g.rules v [] } : Grammar).rules,
      vp.2.Nodup := nodupRules_setValue g.rules v [] h List.nodup_nil
  generalize ({ g with rules := setValue g.rules v [] } : Grammar) = G at base
  induction products generalizing G with
  | nil => exact base
  | cons q qs ih =>
    rw [List.foldl_cons]
    exact ih _ (dupFree_add_product _ _ _ base)

theorem dupFree_removeEpsVar (g : Grammar) (v : String)
    (h : ∀ vp ∈ g.rules, vp.2.Nodup) : ∀ vp ∈ (removeEpsVar g v).rules, vp.2.Nodup := by
  unfold removeEpsVar
  cases hl : g.rules.lookup v with
  | some ps =>
    exact nodupRules_setValue g.rules v _ h
      ((h (v, ps) (mem_keys_of_lookup g.rules v ps hl)).erase _)
  | none => exact h

theorem dupFree_rewritePass (v : String) (visited : List String) :
    ∀ (ks : List String) (g : Grammar) (wl : List String),
    (∀ vp ∈ g.rules, vp.2.Nodup) →
    ∀ vp ∈ (rewritePass v visited ks g wl).1.rules, vp.2.Nodup := by
  intro ks
  induction ks with
  | nil => exact fun g wl h => h
  | cons w rest ih =>
    intro g wl h
    rw [rewritePass]
    exact ih _ _ (dupFree_replace_products _ _ _ h)

theorem dupFree_removeEpsAux :
    ∀ (fuel : Nat) (g : Grammar) (wl visited : List String) (gr : Grammar),
    (∀ vp ∈ g.rules, vp.2.Nodup) → removeEpsAux fuel g wl visited = some gr →
    ∀ vp ∈ gr.rules, vp.2.Nodup := by
  intro fuel
  induction fuel with
  | zero =>
    intro g wl visited gr _ hres
    cases hres
  | succ fuel ih =>
    intro g wl visited gr h hres
    cases wl with
    | nil =>
      rw [removeEpsAux] at hres
      cases hres
      exact h
    | cons v rest =>
      rw [removeEpsAux] at hres
      exact ih _ _ _ _ (dupFree_rewritePass _ _ _ _ _ (dupFree_removeEpsVar g v h)) hres

theorem dupFree_removeUnitAux :
    ∀ (pending : List (String × List String)) (g : Grammar)
      (processed : List (String × List String)) (gr : Grammar),
    (∀ vp ∈ g.rules, vp.2.Nodup) → removeUnitAux g processed pending = Except.ok gr →
    ∀ vp ∈ gr.rules, vp.2.Nodup := by
  intro pending
  induction pending with
  | nil =>
    intro g processed gr h hres
    rw [removeUnitAux] at hres
    cases hres
    exact h
  | cons pr rest ih =>
    intro g processed gr h hres
    obtain ⟨v, product⟩ := pr
    rw [removeUnitAux] at hres
    by_cases h1 : product.headD "" = v
    · rw [if_pos h1] at hres
      exact ih _ _ _ h hres
    · rw [if_neg h1] at hres
      set g1 : Grammar :=
        { g with rules := setValue g.rules v (((g.rules.lookup v).getD []).erase product) }
        with hg1
      have hdf1 : ∀ vp ∈ g1.rules, vp.2.Nodup := by
        rw [hg1]
        apply nodupRules_setValue g.rules v _ h
        cases hl : g.rules.lookup v with
        | some ps =>
          simp only [Option.getD_some]
          exact (h (v, ps) (mem_keys_of_lookup g.rules v ps hl)).erase _
        | none => simp
      by_cases h2 : ((g1.rules.lookup (product.headD "")).getD []).any
          (fun item => decide ((v, item) ∈ processed)) = true
      · rw [if_pos h2] at hres
        exact ih _ _ _ hdf1 hres
      · rw [if_neg h2] at hres
        cases hae : add_ruleE g1 v ((g1.rules.lookup (product.headD "")).getD []) with
        | ok g2 =>
          rw [hae] at hres
          have hg2 : g2 = add_rule g1 v ((g1.rules.lookup (product.headD "")).getD []) := by
            unfold add_ruleE at hae
            by_cases hn : ruleNameMatches v = true
            · rw [if_pos hn] at hae
              cases hae
              rfl
            · rw [if_neg hn] at hae
              cases hae
          exact ih _ _ _ (by rw [hg2]; exact dupFree_add_rule _ _ _ hdf1) hres
        | error ge =>
          rw [hae] at hres
          cases hres

theorem dupFreeB_iff (g : Grammar) :
    dupFreeB g = true ↔ ∀ vp ∈ g.rules, vp.2.Nodup := by
  simp [dupFreeB, List.all_eq_true]

/-- Claim C8 amended: the no-duplicate-production invariant is
preserved by add_product, add_rule, change_start_variable,
remove_epsilon_rules and remove_unit_rules; convert_to_proper_form is
excluded, since its reused-variable index assignment can duplicate an
existing production (see the counterexample above). -/
theorem dup_free_preserved_by_core_ops (g : Grammar) (v : String) (p : List String) (lhs : String)
    (rhs : List (List String)) (g1 g2 : Grammar)
    (h : dupFreeB g = true) :
    dupFreeB (add_product g v p) = true ∧
    dupFreeB (add_rule g lhs rhs) = true ∧
    dupFreeB (change_start_variable g) = true ∧
    (remove_epsilon_rules g = some g1 → dupFreeB g1 = true) ∧
    (remove_unit_rules g = Except.ok g2 → dupFreeB g2 = true) := by
  rw [dupFreeB_iff] at h
  refine ⟨?_, ?_, ?_, ?_, ?_⟩
  · exact (dupFreeB_iff _).mpr (dupFree_add_product g v p h)
  · exact (dupFreeB_iff _).mpr (dupFree_add_rule rhs g lhs h)
  · exact (dupFreeB_iff _).mpr (dupFree_change_start g h)
  · intro hres
    exact (dupFreeB_iff _).mpr (dupFree_removeEpsAux _ _ _ _ _ h hres)
  · intro hres
    exact (dupFreeB_iff _).mpr (dupFree_removeUnitAux _ _ _ _ h hres)

/-- Witness for the amended claim C8 at the grammar gTiny (on which
remove_epsilon_rules and remove_unit_rules both return the grammar
unchanged). -/
theorem dup_free_preserved_by_core_ops_witness :
    dupFreeB (add_product gTiny "A" ["b"]) = true ∧
    dupFreeB (add_rule gTiny "B" [["b"]]) = true ∧
    dupFreeB (change_start_variable gTiny) = true ∧
    dupFreeB gTiny = true ∧ dupFreeB gTiny = true :=
  have h := dup_free_preserved_by_core_ops gTiny "A" ["b"] "B" [["b"]] gTiny gTiny (by decide)
  ⟨h.1, h.2.1, h.2.2.1, h.2.2.2.1 rfl, h.2.2.2.2 rfl⟩
